import Mathlib

/-!
Verification development for the obsah CLI core (src/obsah).

The Python modules are shallowly embedded:
* `argparse.Namespace` objects become association lists `Args` from attribute
  names to `Val` values; `arg in args` becomes `(dictLookup args arg).isSome`,
  `getattr` becomes `dictLookup`, `delattr` becomes `delArg`.
* yaml scalars and lists become the inductive `Val`.
* `obsah.constraints.validate_constraints` becomes `validateConstraints`.
* the custom argparse actions `AppendUniqueAction.__call__` and
  `RemoveAction.__call__` become `appendUniqueCall` / `removeCall` over a tiny
  store of list cells, which makes the Python object aliasing (namespace
  attribute aliasing the shared default list) explicit.
* `obsah.reset_args` becomes `resetArgs`; an uncaught Python `AttributeError`
  is an `Except.error`.
* the post-parse tail of `obsah.main` becomes `mainAfterParse`.
* `Playbook._load_metadata_file` / `Playbook.metadata` become
  `loadMetadataFile` / `playbookMetadata`, with Python `dict | dict` merge
  embedded as `dictMerge` over association lists.
-/

set_option autoImplicit false

namespace Obsah

/-- Association list with string keys: the embedding of a Python `dict`
(and of the attribute map of an `argparse.Namespace`). -/
abbrev Dict (α : Type) : Type := List (String × α)

/-- Python `d.get(k)` / `getattr(ns, k, None)`: value of the first entry
with the given key. -/
def dictLookup {α : Type} (d : Dict α) (k : String) : Option α :=
  (d.find? (fun p => p.1 == k)).map (fun p => p.2)

/-- yaml scalar and list values as they occur in parsed arguments,
persisted records and constraint declarations. -/
inductive Val where
  | str : String → Val
  | int : Int → Val
  | bool : Bool → Val
  | strList : List String → Val
deriving DecidableEq

/-- Python `repr` of a string (the names appearing in obsah metadata do not
contain quote characters, so plain single-quoting is the repr). -/
def pyQuote (s : String) : String :=
  String.singleton (Char.ofNat 39) ++ s ++ String.singleton (Char.ofNat 39)

/-- Python `str`/`repr` of a list of strings, as interpolated by the
f-strings in `validate_constraints`. -/
def pyListRepr (xs : List String) : String :=
  "[" ++ String.intercalate ", " (xs.map pyQuote) ++ "]"

/-- Python `str()` of a value, as interpolated by an f-string. -/
def Val.pyStr : Val → String
  | .str s => s
  | .int n => toString n
  | .bool b => if b then "True" else "False"
  | .strList xs => pyListRepr xs

/-- The parsed-arguments state: the attribute map of the
`argparse.Namespace` produced by `parser.parse_args`. -/
abbrev Args : Type := Dict Val

/-- Python `arg in args` on a `Namespace` (attribute presence). -/
def present (args : Args) (x : String) : Bool :=
  (dictLookup args x).isSome

/-- The `Variable` namedtuple of `obsah/__init__.py`. -/
structure Variable where
  name : String
  parameter : String
  help_text : Option String := none
  action : Option String := none
  type : Option String := none
  choices : Option (List String) := none
  dest : Option String := none
deriving DecidableEq

/-- The `constraints` mapping of a playbook metadata dict, viewed with its
five conventional keys; `constraints.get(kind, [])` is the record field. -/
structure ConstraintSet where
  required_together : List (List String) := []
  required_one_of : List (List String) := []
  required_if : List (String × Val × List String) := []
  forbidden_if : List (String × Val × List String) := []
  mutually_exclusive : List (List String) := []
deriving DecidableEq

/-- The metadata dict as consumed by `validate_constraints` and
`reset_args`; the field `vars` embeds the key `variables` of the Python
dict (`variables` is a reserved token in Lean 4), `constraints` and
`reset` embed the keys of the same name. -/
structure PbMetadata where
  vars : List Variable := []
  constraints : ConstraintSet := {}
  reset : List (String × List String) := []
deriving DecidableEq

/-- `variable_to_parameter` from `obsah/constraints.py`: first declared
variable with a matching name yields its parameter, otherwise the raw
name is returned. -/
def variableToParameter (vars : List Variable) (name : String) : String :=
  match vars.find? (fun v => v.name == name) with
  | some v => v.parameter
  | none => name

/-- Error text of one violated `required_together` constraint. -/
def msgRequiredTogether (vars : List Variable) (c : List String) : String :=
  pyListRepr (c.map (variableToParameter vars)) ++ " are required together"

/-- Error text of one violated `required_one_of` constraint. -/
def msgRequiredOneOf (vars : List Variable) (c : List String) : String :=
  "one of " ++ pyListRepr (c.map (variableToParameter vars)) ++ " is required"

/-- Error text of one violated `required_if` constraint. -/
def msgRequiredIf (vars : List Variable) (t : String × Val × List String) : String :=
  pyListRepr (t.2.2.map (variableToParameter vars)) ++ " are required because " ++
    variableToParameter vars t.1 ++ " is " ++ t.2.1.pyStr

/-- Error text of one violated `forbidden_if` constraint. -/
def msgForbiddenIf (vars : List Variable) (t : String × Val × List String) : String :=
  pyListRepr (t.2.2.map (variableToParameter vars)) ++ " are forbidden because " ++
    variableToParameter vars t.1 ++ " is " ++ t.2.1.pyStr

/-- Error text of one violated `mutually_exclusive` constraint; note the
source interpolates the raw `constraint` list, not the parameter spellings. -/
def msgMutuallyExclusive (c : List String) : String :=
  pyListRepr c ++ " are mutually exclusive"

/-- Errors contributed by a single `required_together` constraint
(the body of the first loop of `validate_constraints`). -/
def requiredTogether1 (vars : List Variable) (args : Args) (c : List String) : List String :=
  let presentArgs := c.map (fun arg => present args arg)
  if !presentArgs.all id && presentArgs.any id then [msgRequiredTogether vars c] else []

/-- The first loop of `validate_constraints` (`required_together`). -/
def requiredTogetherErrors (vars : List Variable) (args : Args)
    (groups : List (List String)) : List String :=
  groups.foldl (fun errors c => errors ++ requiredTogether1 vars args c) []

/-- Errors contributed by a single `required_one_of` constraint. -/
def requiredOneOf1 (vars : List Variable) (args : Args) (c : List String) : List String :=
  let presentArgs := c.map (fun arg => present args arg)
  if !presentArgs.any id then [msgRequiredOneOf vars c] else []

/-- The second loop of `validate_constraints` (`required_one_of`). -/
def requiredOneOfErrors (vars : List Variable) (args : Args)
    (groups : List (List String)) : List String :=
  groups.foldl (fun errors c => errors ++ requiredOneOf1 vars args c) []

/-- Errors contributed by a single `required_if` constraint: skipped unless
the trigger is present and equal to the constant, then an error unless every
required argument is present. -/
def requiredIf1 (vars : List Variable) (args : Args)
    (t : String × Val × List String) : List String :=
  match dictLookup args t.1 with
  | some av =>
      if av = t.2.1 then
        if !t.2.2.all (fun arg => present args arg) then [msgRequiredIf vars t] else []
      else []
  | none => []

/-- The third loop of `validate_constraints` (`required_if`). -/
def requiredIfErrors (vars : List Variable) (args : Args)
    (groups : List (String × Val × List String)) : List String :=
  groups.foldl (fun errors t => errors ++ requiredIf1 vars args t) []

/-- Errors contributed by a single `forbidden_if` constraint. -/
def forbiddenIf1 (vars : List Variable) (args : Args)
    (t : String × Val × List String) : List String :=
  match dictLookup args t.1 with
  | some av =>
      if av = t.2.1 then
        if t.2.2.any (fun arg => present args arg) then [msgForbiddenIf vars t] else []
      else []
  | none => []

/-- The fourth loop of `validate_constraints` (`forbidden_if`). -/
def forbiddenIfErrors (vars : List Variable) (args : Args)
    (groups : List (String × Val × List String)) : List String :=
  groups.foldl (fun errors t => errors ++ forbiddenIf1 vars args t) []

/-- Errors contributed by a single `mutually_exclusive` constraint:
`present_args = [True for arg in constraint if arg in args]` has the length
of the filtered list. -/
def mutuallyExclusive1 (args : Args) (c : List String) : List String :=
  let presentCount := (c.filter (fun arg => present args arg)).length
  if presentCount > 1 then [msgMutuallyExclusive c] else []

/-- The fifth loop of `validate_constraints` (`mutually_exclusive`). -/
def mutuallyExclusiveErrors (args : Args) (groups : List (List String)) : List String :=
  groups.foldl (fun errors c => errors ++ mutuallyExclusive1 args c) []

/-- `validate_constraints` from `obsah/constraints.py`: the five loops
append to one `errors` list, in order. -/
def validateConstraints (metadata : PbMetadata) (args : Args) : List String :=
  requiredTogetherErrors metadata.vars args metadata.constraints.required_together
    ++ requiredOneOfErrors metadata.vars args metadata.constraints.required_one_of
    ++ requiredIfErrors metadata.vars args metadata.constraints.required_if
    ++ forbiddenIfErrors metadata.vars args metadata.constraints.forbidden_if
    ++ mutuallyExclusiveErrors args metadata.constraints.mutually_exclusive

/-! ### Custom argparse actions

A `Store` holds the Python list objects reachable from the action: cell
`r` is the list object at reference `r`.  The argparse machinery seeds
`namespace.dest` with the default list object itself, so before the first
action call the namespace reference aliases the default reference. -/

/-- Heap of Python list objects: cell index = object reference. -/
structure Store where
  cells : List (List String)
deriving DecidableEq

/-- Dereference a list object (out-of-range never happens in the modelled
runs; it reads as the empty list). -/
def Store.read (σ : Store) (r : Nat) : List String :=
  σ.cells.getD r []

/-- Allocate a fresh list object (Python `list(items)` / `[]`). -/
def Store.alloc (σ : Store) (v : List String) : Store × Nat :=
  (⟨σ.cells ++ [v]⟩, σ.cells.length)

/-- Value computed by `AppendUniqueAction.__call__` for the fresh list:
append `v` only if it is not already a member. -/
def appendUniqueValue (items : List String) (v : String) : List String :=
  if v ∈ items then items else items ++ [v]

/-- `AppendUniqueAction.__call__`: read the current destination list (or
`[]` when the attribute is `None`/absent), copy it with `list(items)`,
conditionally append, and bind the namespace attribute to the fresh
object.  Returns the new store and the new namespace reference. -/
def appendUniqueCall (σ : Store) (nsRef : Option Nat) (v : String) : Store × Nat :=
  let items := match nsRef with
    | some r => σ.read r
    | none => []
  σ.alloc (appendUniqueValue items v)

/-- Value computed by `RemoveAction.__call__` on an existing list: delete
the first occurrence of `v` if present, silent no-op otherwise. -/
def removeValue (items : List String) (v : String) : List String :=
  if v ∈ items then items.erase v else items

/-- `RemoveAction.__call__`: when the attribute is `None`/absent the items
become a fresh `[]`; otherwise the list is copied and the first occurrence
of `v` removed if present.  The namespace is bound to the fresh object. -/
def removeCall (σ : Store) (nsRef : Option Nat) (v : String) : Store × Nat :=
  match nsRef with
  | none => σ.alloc []
  | some r => σ.alloc (removeValue (σ.read r) v)

/-- A parsing session applying `AppendUniqueAction` once per supplied
value, threading the namespace attribute reference. -/
def runAppendUnique (σ : Store) (nsRef : Option Nat) (vsIn : List String) : Store × Option Nat :=
  vsIn.foldl (fun p v =>
    let next := appendUniqueCall p.1 p.2 v
    (next.1, some next.2)) (σ, nsRef)

/-! ### Reset engine (`obsah.reset_args`) -/

/-- A Python `for` loop whose body may raise: fold with exception
propagation. -/
def foldE {ε α β : Type} (f : β → α → Except ε β) : β → List α → Except ε β
  | b, [] => Except.ok b
  | b, a :: t =>
      match f b a with
      | Except.ok b2 => foldE f b2 t
      | Except.error e => Except.error e

/-- Python `getattr(args, k)`: `AttributeError` when the attribute is
absent. -/
def getattrE (a : Args) (k : String) : Except String Val :=
  match dictLookup a k with
  | some v => Except.ok v
  | none => Except.error "AttributeError"

/-- Python `delattr(args, k)` on a namespace: drop the entry. -/
def delArg (a : Args) (k : String) : Args :=
  a.filter (fun p => p.1 != k)

/-- Inner loop body of the reset cascade: for one dependent `dep`,
`if arg in persist_params and persist_params[arg] == getattr(args, arg):
delattr(args, arg)`. -/
def applyResetDep (pp : Dict Val) (acc : Args) (dep : String) : Except String Args :=
  match dictLookup pp dep with
  | some dpv =>
      match dictLookup acc dep with
      | some dav => if dpv = dav then Except.ok (delArg acc dep) else Except.ok acc
      | none => Except.error "AttributeError"
  | none => Except.ok acc

/-- Outer loop body of the reset cascade: for one `ResetRule`,
`if reset_key in persist_params and persist_params.get(reset_key) !=
getattr(args, reset_key):` run the dependent loop. -/
def applyResetRule (pp : Dict Val) (a : Args) (rule : String × List String) :
    Except String Args :=
  match dictLookup pp rule.1 with
  | some pv =>
      match dictLookup a rule.1 with
      | some av => if pv ≠ av then foldE (applyResetDep pp) a rule.2 else Except.ok a
      | none => Except.error "AttributeError"
  | none => Except.ok a

/-- `getattr(args, 'obsah_reset', None) or []`: the reset-queue
accumulated by the `--reset-X` `append_const` flags. -/
def obsahResetQueue (a : Args) : List String :=
  match dictLookup a ("obsah_reset") with
  | some (Val.strList xs) => xs
  | _ => []

/-- The reset-queue loop: `delattr` each queued name, suppressing
`AttributeError` (deleting an absent entry is a no-op). -/
def applyResetQueue (q : List String) (a : Args) : Args :=
  q.foldl delArg a

/-- `reset_args` from `obsah/__init__.py`.  The whole body runs inside
`contextlib.suppress(FileNotFoundError)`, so an absent persisted file
(`persistFile = none`) skips everything; a falsy loaded record
(`pp.isEmpty`) also skips everything (`if persist_params:`).  Otherwise
the cascade rules run, then the reset-queue entries are deleted. -/
def resetArgs (persistFile : Option (Dict Val)) (metadata : PbMetadata) (args : Args) :
    Except String Args :=
  match persistFile with
  | none => Except.ok args
  | some pp =>
      if pp.isEmpty then Except.ok args
      else
        (foldE (applyResetRule pp) args metadata.reset).map
          (fun a1 => applyResetQueue (obsahResetQueue a1) a1)

/-! ### The post-parse tail of `obsah.main` -/

/-- `ObsahArgumentParser.exit`: a message not ending in a newline gets
one appended (`message.endswith("\n")` checks the last character). -/
def exitMessage (m : String) : String :=
  if m.data.getLast? = some (Char.ofNat 10) then m else m ++ "\n"

/-- Observable outcome of one `main` invocation after argument parsing:
exit status, message passed to `parser.exit`, persisted file content after
the run, whether the persisted file was written, and whether the
downstream engine (`PlaybookCLI`) was invoked. -/
structure MainResult where
  exitStatus : Int
  message : Option String
  persistedAfter : Option (Dict Val)
  persistWritten : Bool
  engineInvoked : Bool
deriving DecidableEq

/-- The tail of `obsah.main` after `parser.parse_args`: optional reset,
constraint validation (non-empty errors exit 1 with the joined message),
inventory check, persisted-record write-back (all parsed attributes minus
the denylist, wholesale), then the downstream engine whose exit code is
passed through.  An uncaught `AttributeError` from `reset_args` is an
`Except.error`. -/
def mainAfterParse (persistEnabled : Bool) (metadata : PbMetadata) (args : Args)
    (takesTarget invExists : Bool) (persistedBefore : Option (Dict Val))
    (dontPersist : List String) (inventoryPath : String) (engineExit : Int) :
    Except String MainResult :=
  (if persistEnabled then resetArgs persistedBefore metadata args else Except.ok args).bind
    (fun args1 =>
      let errors := validateConstraints metadata args1
      if errors.isEmpty then
        if takesTarget && !invExists then
          Except.ok
            { exitStatus := 1
            , message := some (exitMessage ("Could not find your inventory at " ++ inventoryPath))
            , persistedAfter := persistedBefore
            , persistWritten := false
            , engineInvoked := false }
        else
          Except.ok
            { exitStatus := engineExit
            , message := none
            , persistedAfter :=
                if persistEnabled then
                  some (args1.filter (fun p => !(dontPersist.contains p.1)))
                else persistedBefore
            , persistWritten := persistEnabled
            , engineInvoked := true }
      else
        Except.ok
          { exitStatus := 1
          , message := some (exitMessage (String.intercalate "\n" errors))
          , persistedAfter := persistedBefore
          , persistWritten := false
          , engineInvoked := false })

/-! ### Metadata resolution (`Playbook._load_metadata_file` / `Playbook.metadata`)

The merge of `variables` and `constraints` is value-agnostic in the
source (`dict | dict` on whatever yaml produced), so the constraint
payload type is a parameter `κ`; the variable payloads must be concrete
because `_parse_parameters` inspects them. -/

/-- The per-variable options mapping (`{parameter?, help?, action?, type?,
choices?, dest?}`) of a raw metadata file. -/
structure VarOpts where
  parameter : Option String := none
  help : Option String := none
  action : Option String := none
  type : Option String := none
  choices : Option (List String) := none
  dest : Option String := none
deriving DecidableEq

/-- A raw (yaml-level) metadata mapping; absent keys are the defaults
(`data.get(key, default)`).  The field `includes` embeds the key
`include` and `vars` the key `variables` (both reserved tokens in
Lean 4). -/
structure RawMeta (κ : Type) where
  help : Option String := none
  includes : List String := []
  vars : Dict VarOpts := []
  constraints : Dict κ := []
  reset : List (String × List String) := []
deriving DecidableEq

/-- `Playbook._load_metadata_file`: a missing file (`none`) yields an
empty mapping, never an error. -/
def loadMetadataFile {κ : Type} (file : Option (RawMeta κ)) : RawMeta κ :=
  file.getD {}

/-- Value of a key of the left dict in a Python `a | b` merge: `b`'s
value when `b` also binds the key, the left value otherwise. -/
def mergeVal {α : Type} (b : Dict α) (p : String × α) : α :=
  match dictLookup b p.1 with
  | some w => w
  | none => p.2

/-- Python `a | b` on dicts: keys of `a` in order with `b`'s value where
`b` also binds the key, followed by the keys only `b` binds. -/
def dictMerge {α : Type} (a b : Dict α) : Dict α :=
  a.map (fun p => (p.1, mergeVal b p)) ++ b.filter (fun p => !(dictLookup a p.1).isSome)

/-- One iteration of the include loop of `Playbook.metadata`: load the
include's metadata file and merge its `variables` and `constraints` into
the accumulated data (the include's other keys are never read). -/
def mergeInclude {κ : Type} (lookup : String → Option (RawMeta κ))
    (d : RawMeta κ) (inc : String) : RawMeta κ :=
  let incData := loadMetadataFile (lookup inc)
  { d with
    vars := dictMerge d.vars incData.vars
    constraints := dictMerge d.constraints incData.constraints }

/-- The include loop of `Playbook.metadata`: iterate over the includes
declared by the primary file only (single level). -/
def mergedRawData {κ : Type} (primary : RawMeta κ)
    (lookup : String → Option (RawMeta κ)) : RawMeta κ :=
  primary.includes.foldl (mergeInclude lookup) primary

/-- Python `name.removeprefix(pre)`: strip `pre` if it is a prefix,
otherwise return the string unchanged (character-list implementation). -/
def removePrefixStr (s pre : String) : String :=
  if pre.data.isPrefixOf s.data then String.mk (s.data.drop pre.data.length) else s

/-- Python `name.replace('_', '-')`: every underscore becomes a dash
(character-map implementation of the single-character replace). -/
def dashify (s : String) : String :=
  String.mk (s.data.map (fun c => if c = Char.ofNat 95 then Char.ofNat 45 else c))

/-- Parameter derivation of `Playbook._parse_parameters`: de-namespace the
variable name by the playbook name plus underscore, replace underscores
with dashes, and prepend the double dash. -/
def deriveParameter (pbName varName : String) : String :=
  "--" ++ dashify (removePrefixStr varName (pbName ++ "_"))

/-- `Playbook._parse_parameters`: one `Variable` per raw entry, with the
explicit `parameter` field or the derived spelling. -/
def parseParameters (pbName : String) (vs : Dict VarOpts) : List Variable :=
  vs.map (fun p =>
    { name := p.1
    , parameter := p.2.parameter.getD (deriveParameter pbName p.1)
    , help_text := p.2.help
    , action := p.2.action
    , type := p.2.type
    , choices := p.2.choices
    , dest := p.2.dest })

/-- Insert a variable into a name-sorted list. -/
def insertByName (v : Variable) : List Variable → List Variable
  | [] => [v]
  | h :: t => if v.name ≤ h.name then v :: h :: t else h :: insertByName v t

/-- `sorted(...)` over the parsed variables: the names are unique dict
keys, so the namedtuple tuple-order sort is a sort by name. -/
def sortByName (l : List Variable) : List Variable :=
  l.foldr insertByName []

/-- The normalized metadata record produced by `Playbook.metadata`: the
keys `help`, `variables` (field `vars`), `constraints`, `reset` are always
present. -/
structure ResolvedMetadata (κ : Type) where
  help : Option String
  vars : List Variable
  constraints : Dict κ
  reset : List (String × List String)
deriving DecidableEq

/-- `Playbook.metadata`: merge the declared includes, then normalize. -/
def playbookMetadata {κ : Type} (pbName : String) (primary : RawMeta κ)
    (lookup : String → Option (RawMeta κ)) : ResolvedMetadata κ :=
  let data := mergedRawData primary lookup
  { help := data.help
  , vars := sortByName (parseParameters pbName data.vars)
  , constraints := data.constraints
  , reset := data.reset }

/-- Last-defined-wins lookup over a chain of dicts, the specification of
repeated `dict | dict` merging. -/
def overrideChain {α : Type} (ds : List (Dict α)) (k : String) : Option α :=
  ds.foldl (fun acc d => match dictLookup d k with
    | some v => some v
    | none => acc) none

/-- One namespace is obtained from another purely by deletions: every
entry either survives with its value or is gone. -/
def argsSub (b a : Args) : Prop :=
  ∀ n, dictLookup b n = dictLookup a n ∨ dictLookup b n = none

/-- The trigger of a reset rule kept its persisted value: either the
persisted record does not bind the trigger, or the parsed arguments carry
exactly the persisted value. -/
def triggerUnchangedB (pp : Dict Val) (a : Args) (r : String × List String) : Bool :=
  match dictLookup pp r.1 with
  | some tv => dictLookup a r.1 == some tv
  | none => true

/-- `triggerUnchangedB` lifted over the optional persisted file. -/
def triggerUnchangedOpt (persist : Option (Dict Val)) (a : Args)
    (r : String × List String) : Bool :=
  match persist with
  | none => true
  | some pp => triggerUnchangedB pp a r

/-- Catalog, constraints and arguments exhibiting the `mutually_exclusive`
message shape: both variables are declared with explicit flags. -/
def mdC2 : PbMetadata :=
  { vars := [{ name := "a", parameter := "--alpha" }, { name := "b", parameter := "--beta" }]
  , constraints := { mutually_exclusive := [["a", "b"]] } }

/-- Arguments presenting both members of the exclusive group. -/
def argsC2 : Args := [("a", Val.str "1"), ("b", Val.str "1")]

/-- Persisted record of the reset-cascade scenario:
`{trigger: "A", dep: "x"}`. -/
def ppC1 : Dict Val := [("trigger", Val.str "A"), ("dep", Val.str "x")]

/-- Metadata with the single reset rule `(trigger, [dep])`. -/
def mdC1 : PbMetadata := { reset := [("trigger", ["dep"])] }

/-- Parsed arguments of the scenario: the new run supplies
`trigger = "B"` and explicitly re-supplies `dep = "x"`. -/
def argsC1 : Args := [("trigger", Val.str "B"), ("dep", Val.str "x")]

/-- Parsed arguments carrying a populated reset-queue while the
persisted-record file is absent. -/
def argsC4 : Args := [("obsah_reset", Val.strList ["x"]), ("x", Val.str "v")]

/-- Primary raw metadata with one declared include and a constraint key
that collides with the include's. -/
def rawC5 : RawMeta String :=
  { includes := ["inc"]
  , constraints := [("required_together", "p")]
  , vars := [("t_a", { parameter := some "--a" })] }

/-- Include raw metadata colliding with the primary on both a variable
name and a constraint key. -/
def incC5 : RawMeta String :=
  { constraints := [("required_together", "i")]
  , vars := [("t_a", { parameter := some "--ai" })] }

/-- The same include with its own includes, help and reset populated —
fields the resolver must never read. -/
def incC5b : RawMeta String :=
  { incC5 with includes := ["deep"], help := some "ignored", reset := [("x", ["y"])] }

/-- Include lookup resolving only the declared include. -/
def lkpC5 : String → Option (RawMeta String) :=
  fun s => if s = "inc" then some incC5 else none

/-- A second lookup: the declared include differs only in fields the
resolver must ignore, and an undeclared name now resolves. -/
def lkpC5b : String → Option (RawMeta String) :=
  fun s => if s = "inc" then some incC5b else if s = "deep" then some rawC5 else none

/-! ### Generic list lemmas -/

theorem allMapId {α : Type} (l : List α) (f : α → Bool) : (l.map f).all id = l.all f := by
  induction l with
  | nil => rfl
  | cons a t ih => simp only [List.map_cons, List.all_cons, ih, id]

theorem anyMapId {α : Type} (l : List α) (f : α → Bool) : (l.map f).any id = l.any f := by
  induction l with
  | nil => rfl
  | cons a t ih => simp only [List.map_cons, List.any_cons, ih, id]

theorem errorsFoldShift {α β : Type} (f : α → List β) (l : List α) (init : List β) :
    l.foldl (fun acc c => acc ++ f c) init = init ++ l.foldl (fun acc c => acc ++ f c) [] := by
  induction l generalizing init with
  | nil => simp
  | cons a t ih =>
      simp only [List.foldl_cons]
      rw [ih (init ++ f a), ih ([] ++ f a)]
      simp [List.append_assoc]

theorem errorsFoldMem {α β : Type} (f : α → List β) (l : List α) (e : β) :
    e ∈ l.foldl (fun acc c => acc ++ f c) [] ↔ ∃ c ∈ l, e ∈ f c := by
  induction l with
  | nil => simp
  | cons a t ih =>
      rw [List.foldl_cons, errorsFoldShift]
      simp only [List.mem_append, ih, List.nil_append, List.mem_cons]
      constructor
      · rintro (h | ⟨c, hc, he⟩)
        · exact ⟨a, Or.inl rfl, h⟩
        · exact ⟨c, Or.inr hc, he⟩
      · rintro ⟨c, (rfl | hc), he⟩
        · exact Or.inl he
        · exact Or.inr ⟨c, hc, he⟩

/-! ### Claim theorems: constraint validation -/

/-- C6: RequiredTogether validation.  For a `required_together` group, the
loop body emits exactly one error naming the whole group precisely when the
present members form a strict, non-empty, non-full subset of the group
(some member present and some member absent), and no error when all or
none are present; each group contributes its own errors independently, and
`validate_constraints` returns the `required_together` errors first. -/
theorem required_together_spec (md : PbMetadata) (args : Args) (c : List String) :
    (requiredTogether1 md.vars args c = [msgRequiredTogether md.vars c]
        ↔ ((∃ x ∈ c, present args x = true) ∧ (∃ x ∈ c, present args x = false)))
  ∧ (requiredTogether1 md.vars args c = []
        ↔ ((∀ x ∈ c, present args x = true) ∨ (∀ x ∈ c, present args x = false)))
  ∧ (∀ gs, requiredTogetherErrors md.vars args (c :: gs)
        = requiredTogether1 md.vars args c ++ requiredTogetherErrors md.vars args gs)
  ∧ (∃ rest, validateConstraints md args
        = requiredTogetherErrors md.vars args md.constraints.required_together ++ rest) := by
  have htrue : (!(c.all (present args)) && c.any (present args)) = true
      ↔ ((∃ x ∈ c, present args x = true) ∧ (∃ x ∈ c, present args x = false)) := by
    simp [List.all_eq_true, List.any_eq_true]
    tauto
  have hfalse : (!(c.all (present args)) && c.any (present args)) = false
      ↔ ((∀ x ∈ c, present args x = true) ∨ (∀ x ∈ c, present args x = false)) := by
    have h1 : (!(c.all (present args)) && c.any (present args)) = false
        ↔ (c.all (present args) = true ∨ c.any (present args) = false) := by
      cases hA : c.all (present args) <;> cases hB : c.any (present args) <;> simp
    rw [h1, List.all_eq_true, List.any_eq_false]
    simp [Bool.not_eq_true]
  refine ⟨?_, ?_, ?_, ?_⟩
  · rw [← htrue]
    simp only [requiredTogether1, allMapId, anyMapId]
    cases h : (!(c.all (present args)) && c.any (present args)) <;> simp [h]
  · rw [← hfalse]
    simp only [requiredTogether1, allMapId, anyMapId]
    cases h : (!(c.all (present args)) && c.any (present args)) <;> simp [h]
  · intro gs
    simp only [requiredTogetherErrors, List.foldl_cons]
    rw [errorsFoldShift]
    simp
  · refine ⟨requiredOneOfErrors md.vars args md.constraints.required_one_of
      ++ (requiredIfErrors md.vars args md.constraints.required_if
      ++ (forbiddenIfErrors md.vars args md.constraints.forbidden_if
      ++ mutuallyExclusiveErrors args md.constraints.mutually_exclusive)), ?_⟩
    simp [validateConstraints, List.append_assoc]

/-- C7: MutuallyExclusive validation.  For a `mutually_exclusive` group,
the loop body emits exactly one error when two or more of the named
variables are present in the parsed arguments and no error when at most
one is present; each group contributes independently, and these errors
form the final segment of the `validate_constraints` result. -/
theorem mutually_exclusive_spec (md : PbMetadata) (args : Args) (c : List String) :
    (mutuallyExclusive1 args c = [msgMutuallyExclusive c]
        ↔ 2 ≤ (c.filter (fun x => present args x)).length)
  ∧ (mutuallyExclusive1 args c = []
        ↔ (c.filter (fun x => present args x)).length ≤ 1)
  ∧ (∀ gs, mutuallyExclusiveErrors args (c :: gs)
        = mutuallyExclusive1 args c ++ mutuallyExclusiveErrors args gs)
  ∧ (∃ pre, validateConstraints md args
        = pre ++ mutuallyExclusiveErrors args md.constraints.mutually_exclusive) := by
  refine ⟨?_, ?_, ?_, ?_⟩
  · simp only [mutuallyExclusive1]
    by_cases h : (c.filter (fun x => present args x)).length > 1 <;> simp [h] <;> omega
  · simp only [mutuallyExclusive1]
    by_cases h : (c.filter (fun x => present args x)).length > 1 <;> simp [h] <;> omega
  · intro gs
    simp only [mutuallyExclusiveErrors, List.foldl_cons]
    rw [errorsFoldShift]
    simp
  · refine ⟨requiredTogetherErrors md.vars args md.constraints.required_together
      ++ (requiredOneOfErrors md.vars args md.constraints.required_one_of
      ++ (requiredIfErrors md.vars args md.constraints.required_if
      ++ forbiddenIfErrors md.vars args md.constraints.forbidden_if)), ?_⟩
    simp [validateConstraints, List.append_assoc]

theorem mem_requiredTogether1 (vs : List Variable) (args : Args) (c : List String) (e : String)
    (h : e ∈ requiredTogether1 vs args c) : e = msgRequiredTogether vs c := by
  simp only [requiredTogether1] at h
  split at h
  · simpa using h
  · simp at h

theorem mem_requiredOneOf1 (vs : List Variable) (args : Args) (c : List String) (e : String)
    (h : e ∈ requiredOneOf1 vs args c) : e = msgRequiredOneOf vs c := by
  simp only [requiredOneOf1] at h
  split at h
  · simpa using h
  · simp at h

theorem mem_requiredIf1 (vs : List Variable) (args : Args) (t : String × Val × List String)
    (e : String) (h : e ∈ requiredIf1 vs args t) : e = msgRequiredIf vs t := by
  simp only [requiredIf1] at h
  split at h
  · split at h
    · split at h
      · simpa using h
      · simp at h
    · simp at h
  · simp at h

theorem mem_forbiddenIf1 (vs : List Variable) (args : Args) (t : String × Val × List String)
    (e : String) (h : e ∈ forbiddenIf1 vs args t) : e = msgForbiddenIf vs t := by
  simp only [forbiddenIf1] at h
  split at h
  · split at h
    · split at h
      · simpa using h
      · simp at h
    · simp at h
  · simp at h

theorem mem_mutuallyExclusive1 (args : Args) (c : List String) (e : String)
    (h : e ∈ mutuallyExclusive1 args c) : e = msgMutuallyExclusive c := by
  simp only [mutuallyExclusive1] at h
  split at h
  · simpa using h
  · simp at h

/-- C2 (amended): every message returned by `validate_constraints` has one
of the five shapes; `required_together`, `required_one_of`, `required_if`
and `forbidden_if` messages render each referenced variable through the
catalog lookup `variable_to_parameter` (explicit parameter when the name
resolves to a declared variable, raw internal name as fallback), while
`mutually_exclusive` messages interpolate the raw group without any
catalog lookup. -/
theorem constraint_messages_spec (md : PbMetadata) (args : Args) (e : String)
    (h : e ∈ validateConstraints md args) :
    ((∃ c ∈ md.constraints.required_together, e = msgRequiredTogether md.vars c)
      ∨ (∃ c ∈ md.constraints.required_one_of, e = msgRequiredOneOf md.vars c)
      ∨ (∃ t ∈ md.constraints.required_if, e = msgRequiredIf md.vars t)
      ∨ (∃ t ∈ md.constraints.forbidden_if, e = msgForbiddenIf md.vars t)
      ∨ (∃ c ∈ md.constraints.mutually_exclusive, e = msgMutuallyExclusive c))
  ∧ (∀ n v, md.vars.find? (fun w => w.name == n) = some v →
        variableToParameter md.vars n = v.parameter)
  ∧ (∀ n, md.vars.find? (fun w => w.name == n) = none →
        variableToParameter md.vars n = n) := by
  refine ⟨?_, ?_, ?_⟩
  · simp only [validateConstraints, List.mem_append] at h
    rcases h with ((((h | h) | h) | h) | h)
    · left
      simp only [requiredTogetherErrors] at h
      rcases (errorsFoldMem _ _ _).mp h with ⟨c, hc, he⟩
      exact ⟨c, hc, mem_requiredTogether1 _ _ _ _ he⟩
    · right; left
      simp only [requiredOneOfErrors] at h
      rcases (errorsFoldMem _ _ _).mp h with ⟨c, hc, he⟩
      exact ⟨c, hc, mem_requiredOneOf1 _ _ _ _ he⟩
    · right; right; left
      simp only [requiredIfErrors] at h
      rcases (errorsFoldMem _ _ _).mp h with ⟨t, ht, he⟩
      exact ⟨t, ht, mem_requiredIf1 _ _ _ _ he⟩
    · right; right; right; left
      simp only [forbiddenIfErrors] at h
      rcases (errorsFoldMem _ _ _).mp h with ⟨t, ht, he⟩
      exact ⟨t, ht, mem_forbiddenIf1 _ _ _ _ he⟩
    · right; right; right; right
      simp only [mutuallyExclusiveErrors] at h
      rcases (errorsFoldMem _ _ _).mp h with ⟨c, hc, he⟩
      exact ⟨c, hc, mem_mutuallyExclusive1 _ _ _ he⟩
  · intro n v hfind
    simp [variableToParameter, hfind]
  · intro n hfind
    simp [variableToParameter, hfind]

/-- C2 counterexample: with variables `a ↦ --alpha` and `b ↦ --beta`
declared, the `mutually_exclusive` violation message interpolates the raw
internal names, not the flag spellings obtained from the catalog. -/
theorem constraint_messages_cex :
    validateConstraints mdC2 argsC2 = [msgMutuallyExclusive ["a", "b"]]
  ∧ msgMutuallyExclusive ["a", "b"]
      ≠ pyListRepr (["a", "b"].map (variableToParameter mdC2.vars)) ++ " are mutually exclusive" := by
  constructor
  · decide
  · decide

/-- Witness for C2: the fallback clause applied at a concrete metadata
whose validation produces a message. -/
theorem constraint_messages_spec_witness :
    variableToParameter ({ constraints := { required_one_of := [["a"]] } } : PbMetadata).vars "x"
      = "x" := by
  exact (constraint_messages_spec { constraints := { required_one_of := [["a"]] } } []
    (msgRequiredOneOf [] ["a"]) (by decide)).2.2 "x" (by decide)

/-- C3: a non-empty `validate_constraints` result makes `main` exit with
status 1 and the messages joined by newlines (plus the trailing newline
added by `ObsahArgumentParser.exit`), without writing the persisted-record
file and without invoking the downstream engine. -/
theorem validation_failure_aborts (persistEnabled : Bool) (md : PbMetadata)
    (args args1 : Args) (takesTarget invExists : Bool)
    (persistedBefore : Option (Dict Val)) (dontPersist : List String)
    (inventoryPath : String) (engineExit : Int)
    (hreset : (if persistEnabled then resetArgs persistedBefore md args else Except.ok args)
        = Except.ok args1)
    (herr : validateConstraints md args1 ≠ []) :
    mainAfterParse persistEnabled md args takesTarget invExists persistedBefore
        dontPersist inventoryPath engineExit
      = Except.ok
          { exitStatus := 1
          , message := some (exitMessage (String.intercalate "\n" (validateConstraints md args1)))
          , persistedAfter := persistedBefore
          , persistWritten := false
          , engineInvoked := false } := by
  have hempty : (validateConstraints md args1).isEmpty = false := by
    cases hE : validateConstraints md args1 with
    | nil => exact absurd hE herr
    | cons a t => rfl
  unfold mainAfterParse
  rw [hreset]
  simp [Except.bind, hempty]

/-- Witness for C3 at a concrete metadata with a violated
`required_one_of` constraint and persistence disabled. -/
theorem validation_failure_aborts_witness :
    mainAfterParse false { constraints := { required_one_of := [["a"]] } } [] false true
        none [] "inv" 0
      = Except.ok
          { exitStatus := 1
          , message := some (exitMessage (String.intercalate "\n"
              (validateConstraints { constraints := { required_one_of := [["a"]] } } [])))
          , persistedAfter := none
          , persistWritten := false
          , engineInvoked := false } := by
  exact validation_failure_aborts false { constraints := { required_one_of := [["a"]] } }
    [] [] false true none [] "inv" 0 rfl (by decide)

/-! ### Claim theorems: custom actions -/

theorem alloc_read (σ : Store) (v : List String) (d : Nat) (h : d < σ.cells.length) :
    ((σ.alloc v).1).read d = σ.read d := by
  simp only [Store.alloc, Store.read, List.getD_eq_getElem?_getD, List.getElem?_append, h,
    if_pos]

theorem alloc_length (σ : Store) (v : List String) :
    ((σ.alloc v).1).cells.length = σ.cells.length + 1 := by
  simp [Store.alloc]

theorem appendUniqueCall_read (σ : Store) (nsRef : Option Nat) (v : String) (d : Nat)
    (h : d < σ.cells.length) : ((appendUniqueCall σ nsRef v).1).read d = σ.read d := by
  cases nsRef <;> exact alloc_read _ _ _ h

theorem appendUniqueCall_length (σ : Store) (nsRef : Option Nat) (v : String) :
    ((appendUniqueCall σ nsRef v).1).cells.length = σ.cells.length + 1 := by
  cases nsRef <;> exact alloc_length _ _

theorem runAppendUnique_read (vsIn : List String) :
    ∀ (σ : Store) (nsRef : Option Nat) (d : Nat), d < σ.cells.length →
      ((runAppendUnique σ nsRef vsIn).1).read d = σ.read d := by
  induction vsIn with
  | nil => intro σ nsRef d h; rfl
  | cons v t ih =>
      intro σ nsRef d h
      have hstep : runAppendUnique σ nsRef (v :: t)
          = runAppendUnique (appendUniqueCall σ nsRef v).1
              (some (appendUniqueCall σ nsRef v).2) t := rfl
      rw [hstep]
      have hlt : d < ((appendUniqueCall σ nsRef v).1).cells.length := by
        rw [appendUniqueCall_length]
        omega
      rw [ih _ _ _ hlt]
      exact appendUniqueCall_read _ _ _ _ h

/-- C8: append-unique.  The computed list equals the current one exactly
when the new value is already a member (first occurrence and order kept,
since the list is returned unchanged) and otherwise appends the value;
the operation is idempotent; running the action on the values
`x`, `x`, `y` against a destination seeded with the shared empty default
yields `["x", "y"]` in a fresh cell while every pre-existing cell — the
shared default at reference 0 in particular — is left unchanged. -/
theorem append_unique_spec :
    (∀ (items : List String) (v : String),
        (appendUniqueValue items v = items ↔ v ∈ items)
      ∧ (v ∉ items → appendUniqueValue items v = items ++ [v]))
  ∧ (∀ (items : List String) (v : String),
        appendUniqueValue (appendUniqueValue items v) v = appendUniqueValue items v)
  ∧ runAppendUnique ⟨[[]]⟩ (some 0) ["x", "x", "y"]
      = (⟨[[], ["x"], ["x"], ["x", "y"]]⟩, some 3)
  ∧ (∀ (σ : Store) (nsRef : Option Nat) (vsIn : List String) (d : Nat),
        d < σ.cells.length → ((runAppendUnique σ nsRef vsIn).1).read d = σ.read d) := by
  refine ⟨?_, ?_, by decide, ?_⟩
  · intro items v
    constructor
    · by_cases h : v ∈ items
      · simp [appendUniqueValue, h]
      · simp [appendUniqueValue, h]
    · intro h
      simp [appendUniqueValue, h]
  · intro items v
    by_cases h : v ∈ items
    · simp [appendUniqueValue, h]
    · simp [appendUniqueValue, h]
  · intro σ nsRef vsIn d h
    exact runAppendUnique_read vsIn σ nsRef d h

/-- Witness for C8: the conditional clauses applied at concrete lists and
the default-preservation clause applied at the concrete session. -/
theorem append_unique_spec_witness :
    appendUniqueValue ["x"] "y" = ["x", "y"]
  ∧ ((runAppendUnique ⟨[[]]⟩ (some 0) ["x", "x", "y"]).1).read 0 = (⟨[[]]⟩ : Store).read 0 := by
  constructor
  · exact (append_unique_spec.1 ["x"] "y").2 (by decide)
  · exact append_unique_spec.2.2.2 ⟨[[]]⟩ (some 0) ["x", "x", "y"] 0 (by decide)

/-- C9: remove.  On an existing destination list, the computed list is the
current one when the value is absent (silent no-op) and the current one
with exactly the first occurrence deleted when present; every
pre-existing cell of the store — the shared default in particular — is
left unchanged by the call. -/
theorem remove_spec :
    (∀ (items : List String) (v : String), v ∉ items → removeValue items v = items)
  ∧ (∀ (items : List String) (v : String), v ∈ items →
        ∃ l1 l2, v ∉ l1 ∧ items = l1 ++ v :: l2 ∧ removeValue items v = l1 ++ l2)
  ∧ (∀ (σ : Store) (nsRef : Option Nat) (v : String) (d : Nat),
        d < σ.cells.length → ((removeCall σ nsRef v).1).read d = σ.read d) := by
  refine ⟨?_, ?_, ?_⟩
  · intro items v h
    simp [removeValue, h]
  · intro items v h
    rcases List.exists_erase_eq h with ⟨l1, l2, hnot, heq, herase⟩
    exact ⟨l1, l2, hnot, heq, by simp [removeValue, h, herase]⟩
  · intro σ nsRef v d h
    cases nsRef <;> exact alloc_read _ _ _ h

/-! ### Reset engine lemmas -/

theorem dictLookup_cons {α : Type} (p : String × α) (t : Dict α) (n : String) :
    dictLookup (p :: t) n = if p.1 == n then some p.2 else dictLookup t n := by
  simp only [dictLookup, List.find?]
  cases h : p.1 == n <;> simp [h]

theorem dictLookup_delArg (a : Args) (k n : String) :
    dictLookup (delArg a k) n = if n = k then none else dictLookup a n := by
  induction a with
  | nil => by_cases h : n = k <;> simp [delArg, dictLookup, h]
  | cons p t ih =>
      by_cases hpk : p.1 = k
      · have h1 : delArg (p :: t) k = delArg t k := by
          simp [delArg, List.filter_cons, hpk]
        rw [h1, ih]
        by_cases hnk : n = k
        · simp [hnk]
        · have hpn : (p.1 == n) = false := by
            rw [beq_eq_false_iff_ne, hpk]
            exact fun hc => hnk hc.symm
          rw [dictLookup_cons]
          simp [hnk, hpn]
      · have h1 : delArg (p :: t) k = p :: delArg t k := by
          simp [delArg, List.filter_cons, hpk]
        rw [h1, dictLookup_cons, dictLookup_cons]
        by_cases hpn : p.1 = n
        · have hnk : n ≠ k := fun hc => hpk (hpn.trans hc)
          simp [hpn, hnk]
        · have hpnb : (p.1 == n) = false := by
            rw [beq_eq_false_iff_ne]
            exact hpn
          simp [hpnb, ih]

theorem dictLookup_delArg_self (a : Args) (k : String) :
    dictLookup (delArg a k) k = none := by
  simp [dictLookup_delArg]

theorem dictLookup_delArg_ne (a : Args) (k n : String) (h : n ≠ k) :
    dictLookup (delArg a k) n = dictLookup a n := by
  simp [dictLookup_delArg, h]

theorem argsSub_refl (a : Args) : argsSub a a := fun _ => Or.inl rfl

theorem argsSub_trans {c b a : Args} (hcb : argsSub c b) (hba : argsSub b a) :
    argsSub c a := by
  intro n
  rcases hcb n with h1 | h1
  · rcases hba n with h2 | h2
    · exact Or.inl (h1.trans h2)
    · exact Or.inr (h1.trans h2)
  · exact Or.inr h1

theorem argsSub_none {b a : Args} (h : argsSub b a) {n : String}
    (hn : dictLookup a n = none) : dictLookup b n = none := by
  rcases h n with h1 | h1
  · exact h1.trans hn
  · exact h1

theorem argsSub_delArg (a : Args) (k : String) : argsSub (delArg a k) a := by
  intro n
  by_cases h : n = k
  · exact Or.inr (by simp [dictLookup_delArg, h])
  · exact Or.inl (dictLookup_delArg_ne a k n h)

theorem applyResetDep_sub (pp : Dict Val) (acc b : Args) (dep : String)
    (h : applyResetDep pp acc dep = Except.ok b) : argsSub b acc := by
  unfold applyResetDep at h
  split at h
  · split at h
    · split at h
      · cases h
        exact argsSub_delArg _ _
      · cases h
        exact argsSub_refl _
    · cases h
  · cases h
    exact argsSub_refl _

theorem foldE_sub {γ : Type} (f : Args → γ → Except String Args)
    (hstep : ∀ acc x b, f acc x = Except.ok b → argsSub b acc) :
    ∀ (l : List γ) (a b : Args), foldE f a l = Except.ok b → argsSub b a := by
  intro l
  induction l with
  | nil =>
      intro a b h
      cases h
      exact argsSub_refl _
  | cons x t ih =>
      intro a b h
      simp only [foldE] at h
      cases hfa : f a x with
      | error e => rw [hfa] at h; cases h
      | ok a2 =>
          rw [hfa] at h
          exact argsSub_trans (ih a2 b h) (hstep a x a2 hfa)

theorem applyResetRule_sub (pp : Dict Val) (a b : Args) (r : String × List String)
    (h : applyResetRule pp a r = Except.ok b) : argsSub b a := by
  unfold applyResetRule at h
  split at h
  · split at h
    · split at h
      · exact foldE_sub _ (fun acc x b2 hx => applyResetDep_sub pp acc b2 x hx) _ _ _ h
      · cases h
        exact argsSub_refl _
    · cases h
  · cases h
    exact argsSub_refl _

theorem applyResetQueue_sub (q : List String) (a : Args) :
    argsSub (applyResetQueue q a) a := by
  induction q generalizing a with
  | nil => exact argsSub_refl _
  | cons k t ih =>
      have hstep : applyResetQueue (k :: t) a = applyResetQueue t (delArg a k) := rfl
      rw [hstep]
      exact argsSub_trans (ih (delArg a k)) (argsSub_delArg a k)

theorem applyResetQueue_mem_none (q : List String) (n : String) :
    ∀ (a : Args), n ∈ q → dictLookup (applyResetQueue q a) n = none := by
  induction q with
  | nil => intro a h; cases h
  | cons k t ih =>
      intro a h
      have hstep : applyResetQueue (k :: t) a = applyResetQueue t (delArg a k) := rfl
      rw [hstep]
      rcases List.mem_cons.mp h with rfl | hmem
      · exact argsSub_none (applyResetQueue_sub t _) (dictLookup_delArg_self a n)
      · exact ih _ hmem

theorem applyResetQueue_notMem (q : List String) (n : String) :
    ∀ (a : Args), n ∉ q → dictLookup (applyResetQueue q a) n = dictLookup a n := by
  induction q with
  | nil => intro a h; rfl
  | cons k t ih =>
      intro a h
      have hstep : applyResetQueue (k :: t) a = applyResetQueue t (delArg a k) := rfl
      rw [hstep]
      have hk : n ≠ k := fun hc => h (hc ▸ List.mem_cons_self k t)
      have ht : n ∉ t := fun hc => h (List.mem_cons_of_mem k hc)
      rw [ih _ ht, dictLookup_delArg_ne a k n hk]

theorem foldE_append {γ : Type} (f : Args → γ → Except String Args)
    (l1 l2 : List γ) (a b : Args) :
    foldE f a (l1 ++ l2) = Except.ok b
      ↔ ∃ x, foldE f a l1 = Except.ok x ∧ foldE f x l2 = Except.ok b := by
  induction l1 generalizing a with
  | nil =>
      simp only [List.nil_append, foldE]
      constructor
      · intro h
        exact ⟨a, rfl, h⟩
      · rintro ⟨x, hx, hb⟩
        cases hx
        exact hb
  | cons y t ih =>
      simp only [List.cons_append, foldE]
      cases hfy : f a y with
      | error e =>
          constructor
          · intro h
            cases h
          · rintro ⟨x, hx, hb⟩
            cases hx
      | ok a2 => exact ih a2

theorem applyResetDep_preserve (pp : Dict Val) (acc b : Args) (dep n : String)
    (hne : dep ≠ n) (h : applyResetDep pp acc dep = Except.ok b) :
    dictLookup b n = dictLookup acc n := by
  unfold applyResetDep at h
  split at h
  · split at h
    · split at h
      · cases h
        exact dictLookup_delArg_ne acc dep n (Ne.symm hne)
      · cases h
        rfl
    · cases h
  · cases h
    rfl

theorem foldE_deps_preserve (pp : Dict Val) (n : String) :
    ∀ (deps : List String) (acc b : Args), (∀ x ∈ deps, x ≠ n) →
      foldE (applyResetDep pp) acc deps = Except.ok b →
      dictLookup b n = dictLookup acc n := by
  intro deps
  induction deps with
  | nil =>
      intro acc b _ h
      cases h
      rfl
  | cons x t ih =>
      intro acc b hx h
      simp only [foldE] at h
      cases hstep : applyResetDep pp acc x with
      | error e => rw [hstep] at h; cases h
      | ok acc2 =>
          rw [hstep] at h
          have h1 := applyResetDep_preserve pp acc acc2 x n
            (hx x (List.mem_cons_self x t)) hstep
          have h2 := ih acc2 b (fun y hy => hx y (List.mem_cons_of_mem x hy)) h
          exact h2.trans h1

theorem applyResetRule_preserve (pp : Dict Val) (a0 a2 : Args)
    (r : String × List String) (n : String) (hmem : n ∉ r.2)
    (h : applyResetRule pp a0 r = Except.ok a2) :
    dictLookup a2 n = dictLookup a0 n := by
  unfold applyResetRule at h
  split at h
  · split at h
    · split at h
      · exact foldE_deps_preserve pp n r.2 a0 a2
          (fun x hx hc => hmem (hc ▸ hx)) h
      · cases h
        rfl
    · cases h
  · cases h
    rfl

theorem rule_unchanged_identity (pp : Dict Val) (a a0 a2 : Args)
    (r : String × List String) (hunch : triggerUnchangedB pp a r = true)
    (hsub : argsSub a0 a) (h : applyResetRule pp a0 r = Except.ok a2) : a2 = a0 := by
  unfold applyResetRule at h
  unfold triggerUnchangedB at hunch
  split at h
  case h_1 pv heq =>
      rw [heq] at hunch
      have hatrig : dictLookup a r.1 = some pv := by
        simpa using hunch
      split at h
      case h_1 av heq0 =>
          have ha0 : dictLookup a0 r.1 = dictLookup a r.1 := by
            rcases hsub r.1 with hs | hs
            · exact hs
            · rw [hs] at heq0
              cases heq0
          have hav : av = pv := by
            rw [heq0, hatrig] at ha0
            exact (Option.some.injEq _ _).mp ha0
          rw [if_neg (by simp [hav])] at h
          cases h
          rfl
      case h_2 heq0 => cases h
  case h_2 heq =>
      cases h
      rfl

theorem cascade_preserve (pp : Dict Val) (a : Args) (n : String) :
    ∀ (rules : List (String × List String)) (a0 b : Args),
      argsSub a0 a → dictLookup a0 n = dictLookup a n →
      (∀ r ∈ rules, n ∈ r.2 → triggerUnchangedB pp a r = true) →
      foldE (applyResetRule pp) a0 rules = Except.ok b →
      dictLookup b n = dictLookup a n := by
  intro rules
  induction rules with
  | nil =>
      intro a0 b _ hn _ h
      cases h
      exact hn
  | cons r t ih =>
      intro a0 b hsub hn hr h
      simp only [foldE] at h
      cases hr0 : applyResetRule pp a0 r with
      | error e => rw [hr0] at h; cases h
      | ok a2 =>
          rw [hr0] at h
          have hsub2 : argsSub a2 a0 := applyResetRule_sub pp a0 a2 r hr0
          by_cases hmem : n ∈ r.2
          · have hunch := hr r (List.mem_cons_self r t) hmem
            have ha2 : a2 = a0 := rule_unchanged_identity pp a a0 a2 r hunch hsub hr0
            rw [ha2] at h
            exact ih a0 b hsub hn (fun r2 h2 => hr r2 (List.mem_cons_of_mem r h2)) h
          · have hpres := applyResetRule_preserve pp a0 a2 r n hmem hr0
            exact ih a2 b (argsSub_trans hsub2 hsub) (hpres.trans hn)
              (fun r2 h2 => hr r2 (List.mem_cons_of_mem r h2)) h

theorem applyResetDep_deletes (pp : Dict Val) (acc : Args) (dep : String) (dv : Val)
    (hdpp : dictLookup pp dep = some dv) (hacc : dictLookup acc dep = some dv) :
    applyResetDep pp acc dep = Except.ok (delArg acc dep) := by
  unfold applyResetDep
  rw [hdpp, hacc]
  simp

theorem foldE_deps_none (pp : Dict Val) (d : String) (dv : Val)
    (hdpp : dictLookup pp d = some dv) :
    ∀ (deps : List String) (acc a2 : Args), d ∈ deps →
      (dictLookup acc d = some dv ∨ dictLookup acc d = none) →
      foldE (applyResetDep pp) acc deps = Except.ok a2 →
      dictLookup a2 d = none := by
  intro deps
  induction deps with
  | nil =>
      intro acc a2 hd _ _
      cases hd
  | cons x t ih =>
      intro acc a2 hd hacc h
      simp only [foldE] at h
      cases hstep : applyResetDep pp acc x with
      | error e => rw [hstep] at h; cases h
      | ok acc2 =>
          rw [hstep] at h
          by_cases hdx : d = x
          · subst hdx
            rcases hacc with hacc | hacc
            · rw [applyResetDep_deletes pp acc d dv hdpp hacc] at hstep
              cases hstep
              have hnone : dictLookup (delArg acc d) d = none :=
                dictLookup_delArg_self acc d
              exact argsSub_none (foldE_sub _
                (fun u x2 v hx => applyResetDep_sub pp u v x2 hx) t _ _ h) hnone
            · unfold applyResetDep at hstep
              rw [hdpp, hacc] at hstep
              cases hstep
          · have hsub2 : argsSub acc2 acc :=
              applyResetDep_sub pp acc acc2 x hstep
            have hacc2 : dictLookup acc2 d = some dv ∨ dictLookup acc2 d = none := by
              rcases hsub2 d with hs | hs
              · rw [hs]
                exact hacc
              · exact Or.inr hs
            rcases List.mem_cons.mp hd with rfl | hdt
            · exact absurd rfl hdx
            · exact ih acc2 a2 hdt hacc2 h

/-- Witness for C9: both value clauses and the preservation clause at
concrete inputs. -/
theorem remove_spec_witness :
    removeValue ["a"] "z" = ["a"]
  ∧ (∃ l1 l2, "x" ∉ l1 ∧ ["a", "x", "x"] = l1 ++ "x" :: l2
        ∧ removeValue ["a", "x", "x"] "x" = l1 ++ l2)
  ∧ ((removeCall ⟨[["a"]]⟩ (some 0) "a").1).read 0 = (⟨[["a"]]⟩ : Store).read 0 := by
  refine ⟨?_, ?_, ?_⟩
  · exact remove_spec.1 ["a"] "z" (by decide)
  · exact remove_spec.2.1 ["a", "x", "x"] "x" (by decide)
  · exact remove_spec.2.2 ⟨[["a"]]⟩ (some 0) "a" 0 (by decide)

/-! ### Claim theorems: reset engine -/

/-- C10: frame property of `reset_args`.  Whenever it returns normally,
every argument entry is either unchanged or deleted (no entry is added
and no value rewritten); and an argument that is not named in the
reset-queue and is, for every reset rule listing it as a dependent,
guarded by a trigger whose persisted value is absent or unchanged, keeps
exactly its previous value. -/
theorem reset_args_frame (persist : Option (Dict Val)) (md : PbMetadata) (a b : Args)
    (hok : resetArgs persist md a = Except.ok b) :
    (∀ n, dictLookup b n = dictLookup a n ∨ dictLookup b n = none)
  ∧ (∀ n, n ∉ obsahResetQueue a →
      (∀ r ∈ md.reset, n ∈ r.2 → triggerUnchangedOpt persist a r = true) →
      dictLookup b n = dictLookup a n) := by
  cases persist with
  | none =>
      simp only [resetArgs] at hok
      cases hok
      exact ⟨fun n => Or.inl rfl, fun n _ _ => rfl⟩
  | some pp =>
      simp only [resetArgs] at hok
      by_cases hpe : pp.isEmpty = true
      · rw [if_pos hpe] at hok
        cases hok
        exact ⟨fun n => Or.inl rfl, fun n _ _ => rfl⟩
      · rw [if_neg hpe] at hok
        cases hfold : foldE (applyResetRule pp) a md.reset with
        | error e =>
            rw [hfold] at hok
            cases hok
        | ok a1 =>
            rw [hfold] at hok
            have hb : b = applyResetQueue (obsahResetQueue a1) a1 := by
              simp only [Except.map] at hok
              cases hok
              rfl
            have hsub1 : argsSub a1 a :=
              foldE_sub _ (fun acc x v hx => applyResetRule_sub pp acc v x hx) _ _ _ hfold
            have hsubb : argsSub b a := by
              rw [hb]
              exact argsSub_trans (applyResetQueue_sub _ _) hsub1
            refine ⟨hsubb, ?_⟩
            intro n hq hr
            have hr2 : ∀ r ∈ md.reset, n ∈ r.2 → triggerUnchangedB pp a r = true := by
              intro r hrm hn2
              exact hr r hrm hn2
            have hcasc : dictLookup a1 n = dictLookup a n :=
              cascade_preserve pp a n md.reset a a1 (argsSub_refl a) rfl hr2 hfold
            rcases hsub1 ("obsah_reset") with hqe | hqe
            · have hqeq : obsahResetQueue a1 = obsahResetQueue a := by
                unfold obsahResetQueue
                rw [hqe]
              rw [hb, hqeq, applyResetQueue_notMem _ n a1 hq]
              exact hcasc
            · have hqeq : obsahResetQueue a1 = [] := by
                unfold obsahResetQueue
                rw [hqe]
              rw [hb, hqeq]
              exact hcasc

/-- Witness for C10: a run whose cascade deletes `d` while `k` — neither
queued nor a dependent — keeps its value. -/
theorem reset_args_frame_witness :
    dictLookup [("t", Val.str "B"), ("k", Val.str "v")] "k"
      = dictLookup [("t", Val.str "B"), ("d", Val.str "x"), ("k", Val.str "v")] "k" := by
  exact (reset_args_frame (some [("t", Val.str "A"), ("d", Val.str "x")])
    { reset := [("t", ["d"])] }
    [("t", Val.str "B"), ("d", Val.str "x"), ("k", Val.str "v")]
    [("t", Val.str "B"), ("k", Val.str "v")] rfl).2 "k" (by decide) (by decide)

/-- C1 (amended): the reset cascade on a normally-returning `reset_args`
run.  If the persisted record holds a value for a rule's trigger that
differs from the trigger's parsed value, then every dependent of that
rule whose parsed value equals its persisted value is removed from the
parsed arguments — including a dependent the user explicitly re-supplied
with the very value that was persisted, since the cascade compares values
only. -/
theorem reset_cascade_removes (pp : Dict Val) (md : PbMetadata) (a b : Args)
    (rk : String) (deps : List String) (tv dv : Val) (d : String)
    (hmem : (rk, deps) ∈ md.reset)
    (hok : resetArgs (some pp) md a = Except.ok b)
    (htrig : dictLookup pp rk = some tv)
    (hdiff : dictLookup a rk ≠ some tv)
    (hd : d ∈ deps)
    (hdpp : dictLookup pp d = some dv)
    (hda : dictLookup a d = some dv) :
    dictLookup b d = none := by
  have hppne : ¬(pp.isEmpty = true) := by
    cases pp with
    | nil => simp [dictLookup] at htrig
    | cons x xs => simp
  simp only [resetArgs] at hok
  rw [if_neg hppne] at hok
  cases hfold : foldE (applyResetRule pp) a md.reset with
  | error e =>
      rw [hfold] at hok
      cases hok
  | ok a1 =>
      rw [hfold] at hok
      have hb : b = applyResetQueue (obsahResetQueue a1) a1 := by
        simp only [Except.map] at hok
        cases hok
        rfl
      rcases List.append_of_mem hmem with ⟨s, t, hsplit⟩
      rw [hsplit] at hfold
      rcases (foldE_append _ s _ a a1).mp hfold with ⟨a0, hs, hrt⟩
      simp only [foldE] at hrt
      cases hrule : applyResetRule pp a0 (rk, deps) with
      | error e =>
          rw [hrule] at hrt
          cases hrt
      | ok a2 =>
          rw [hrule] at hrt
          have hsub0 : argsSub a0 a :=
            foldE_sub _ (fun acc x v hx => applyResetRule_sub pp acc v x hx) _ _ _ hs
          have ha2 : dictLookup a2 d = none := by
            unfold applyResetRule at hrule
            rw [show dictLookup pp (rk, deps).1 = some tv from htrig] at hrule
            cases ha0 : dictLookup a0 rk with
            | none =>
                rw [show dictLookup a0 (rk, deps).1 = none from ha0] at hrule
                cases hrule
            | some av =>
                have hava : dictLookup a rk = some av := by
                  rcases hsub0 rk with hs0 | hs0
                  · rw [← hs0]
                    exact ha0
                  · rw [hs0] at ha0
                    cases ha0
                have hne : tv ≠ av := fun hc => hdiff (by rw [hava, hc])
                rw [show dictLookup a0 (rk, deps).1 = some av from ha0] at hrule
                have hrule2 : (if tv ≠ av then foldE (applyResetDep pp) a0 deps
                    else Except.ok a0) = Except.ok a2 := hrule
                rw [if_pos hne] at hrule2
                have hacc : dictLookup a0 d = some dv ∨ dictLookup a0 d = none := by
                  rcases hsub0 d with hs0 | hs0
                  · rw [hs0]
                    exact Or.inl hda
                  · exact Or.inr hs0
                exact foldE_deps_none pp d dv hdpp deps a0 a2 hd hacc hrule2
          have ha1 : dictLookup a1 d = none :=
            argsSub_none (foldE_sub _
              (fun acc x v hx => applyResetRule_sub pp acc v x hx) _ _ _ hrt) ha2
          rw [hb]
          exact argsSub_none (applyResetQueue_sub _ _) ha1

/-- C1 counterexample: the concrete scenario of the claim.  Persisted
`{trigger: "A", dep: "x"}`; the new run supplies `trigger = "B"` and also
explicitly supplies `dep = "x"`; the cascade nevertheless deletes `dep`
(the parsed arguments come out without it), so the value `"x"` is not
preserved. -/
theorem reset_cascade_cex :
    resetArgs (some ppC1) mdC1 argsC1 = Except.ok [("trigger", Val.str "B")]
  ∧ dictLookup [("trigger", Val.str "B")] "dep" ≠ some (Val.str "x") := by
  constructor
  · rfl
  · decide

/-- Witness for C1 at the concrete scenario: applying the amended theorem
shows the dependent ends up removed. -/
theorem reset_cascade_removes_witness :
    dictLookup [("trigger", Val.str "B")] "dep" = none := by
  exact reset_cascade_removes ppC1 mdC1 argsC1 [("trigger", Val.str "B")]
    "trigger" ["dep"] (Val.str "A") (Val.str "x") "dep"
    (by decide) rfl (by decide) (by decide) (by decide) (by decide) (by decide)

/-- C4 (amended): when the persisted-record file is present and holds a
non-empty record, every variable named in the reset-queue is
unconditionally removed from the parsed arguments, independently of the
cascade rules; when the file is absent the best-effort read yields no
error but the reset-queue is not processed at all. -/
theorem reset_queue_removes (pp : Dict Val) (md : PbMetadata) (a a1 : Args) (n : String)
    (hpp : pp.isEmpty = false)
    (hcasc : foldE (applyResetRule pp) a md.reset = Except.ok a1)
    (hq : n ∈ obsahResetQueue a1) :
    resetArgs (some pp) md a = Except.ok (applyResetQueue (obsahResetQueue a1) a1)
  ∧ dictLookup (applyResetQueue (obsahResetQueue a1) a1) n = none := by
  constructor
  · simp only [resetArgs]
    rw [if_neg (by simp [hpp]), hcasc]
    rfl
  · exact applyResetQueue_mem_none _ n a1 hq

/-- C4 counterexample: with the persisted-record file absent, `reset_args`
returns the arguments unchanged even though the reset-queue names `x`,
which therefore keeps its value instead of being removed. -/
theorem reset_queue_cex :
    resetArgs none {} argsC4 = Except.ok argsC4
  ∧ "x" ∈ obsahResetQueue argsC4
  ∧ dictLookup argsC4 "x" = some (Val.str "v") := by
  refine ⟨rfl, by decide, by decide⟩

/-- Witness for C4: with a present non-empty persisted record and no
cascade rules, the queued variable is removed. -/
theorem reset_queue_removes_witness :
    dictLookup (applyResetQueue (obsahResetQueue argsC4) argsC4) "x" = none := by
  exact (reset_queue_removes [("k", Val.str "1")] {} argsC4 argsC4 "x"
    (by decide) rfl (by decide)).2

/-! ### Metadata resolution lemmas -/

theorem dictLookup_append {α : Type} (x y : Dict α) (k : String) :
    dictLookup (x ++ y) k
      = match dictLookup x k with
        | some v => some v
        | none => dictLookup y k := by
  induction x with
  | nil => rfl
  | cons p t ih =>
      rw [List.cons_append, dictLookup_cons p (t ++ y) k, dictLookup_cons p t k]
      cases h : (p.1 == k) <;> simp [h, ih]

theorem dictLookup_mapSnd {α β : Type} (a : Dict α) (f : String × α → β) (k : String) :
    dictLookup (a.map (fun p => (p.1, f p))) k
      = (a.find? (fun p => p.1 == k)).map f := by
  induction a with
  | nil => rfl
  | cons p t ih =>
      rw [List.map_cons, dictLookup_cons]
      cases h : (p.1 == k) <;> simp [List.find?, h, ih]

theorem dictLookup_filterNew {α : Type} (b a : Dict α) (k : String) :
    dictLookup (b.filter (fun q => !(dictLookup a q.1).isSome)) k
      = if (dictLookup a k).isSome then none else dictLookup b k := by
  induction b with
  | nil =>
      by_cases h : (dictLookup a k).isSome = true <;>
        simp [dictLookup, h]
  | cons q t ih =>
      rw [List.filter_cons]
      by_cases hqk : q.1 = k
      · subst hqk
        cases hg : (dictLookup a q.1).isSome with
        | false =>
            rw [if_pos (by simp [hg])]
            rw [dictLookup_cons q (List.filter (fun r => !(dictLookup a r.1).isSome) t) q.1,
              dictLookup_cons q t q.1]
            simp [hg]
        | true =>
            rw [if_neg (by simp [hg])]
            rw [ih, hg]
            simp
      · have hbeq : (q.1 == k) = false := by
          rw [beq_eq_false_iff_ne]
          exact hqk
        cases hg : (dictLookup a q.1).isSome with
        | false =>
            rw [if_pos (by simp [hg])]
            rw [dictLookup_cons q (List.filter (fun r => !(dictLookup a r.1).isSome) t) k,
              dictLookup_cons q t k]
            simp only [hbeq, Bool.false_eq_true, if_false]
            exact ih
        | true =>
            rw [if_neg (by simp [hg])]
            rw [ih, dictLookup_cons q t k]
            simp [hbeq]

theorem dictLookup_dictMerge {α : Type} (a b : Dict α) (k : String) :
    dictLookup (dictMerge a b) k
      = match dictLookup b k with
        | some w => some w
        | none => dictLookup a k := by
  unfold dictMerge
  rw [dictLookup_append]
  rw [dictLookup_mapSnd a (mergeVal b) k]
  cases hfa : a.find? (fun p => p.1 == k) with
  | none =>
      rw [dictLookup_filterNew]
      have ha : dictLookup a k = none := by
        simp [dictLookup, hfa]
      rw [ha]
      simp only [Option.isSome_none, Bool.false_eq_true, if_false, Option.map_none]
      cases hb : dictLookup b k <;> simp
  | some p =>
      have hpk : p.1 = k := by
        have := List.find?_some hfa
        simpa using this
      have ha : dictLookup a k = some p.2 := by
        simp [dictLookup, hfa]
      simp only [Option.map_some, ha]
      cases hb : dictLookup b k <;> simp [hb, mergeVal, hpk]

theorem foldMerge_help {κ : Type} (lookup : String → Option (RawMeta κ)) :
    ∀ (l : List String) (d : RawMeta κ),
      (l.foldl (mergeInclude lookup) d).help = d.help := by
  intro l
  induction l with
  | nil => intro d; rfl
  | cons i t ih => intro d; exact ih (mergeInclude lookup d i)

theorem foldMerge_reset {κ : Type} (lookup : String → Option (RawMeta κ)) :
    ∀ (l : List String) (d : RawMeta κ),
      (l.foldl (mergeInclude lookup) d).reset = d.reset := by
  intro l
  induction l with
  | nil => intro d; rfl
  | cons i t ih => intro d; exact ih (mergeInclude lookup d i)

theorem foldMerge_constraints {κ : Type} (lookup : String → Option (RawMeta κ)) :
    ∀ (l : List String) (d : RawMeta κ),
      (l.foldl (mergeInclude lookup) d).constraints
        = (l.map (fun i => (loadMetadataFile (lookup i)).constraints)).foldl
            dictMerge d.constraints := by
  intro l
  induction l with
  | nil => intro d; rfl
  | cons i t ih =>
      intro d
      rw [List.foldl_cons, List.map_cons, List.foldl_cons]
      exact ih (mergeInclude lookup d i)

theorem foldMerge_vars {κ : Type} (lookup : String → Option (RawMeta κ)) :
    ∀ (l : List String) (d : RawMeta κ),
      (l.foldl (mergeInclude lookup) d).vars
        = (l.map (fun i => (loadMetadataFile (lookup i)).vars)).foldl
            dictMerge d.vars := by
  intro l
  induction l with
  | nil => intro d; rfl
  | cons i t ih =>
      intro d
      rw [List.foldl_cons, List.map_cons, List.foldl_cons]
      exact ih (mergeInclude lookup d i)

theorem foldl_dictMerge_lookup {α : Type} (k : String) :
    ∀ (ds : List (Dict α)) (d0 : Dict α),
      dictLookup (ds.foldl dictMerge d0) k
        = ds.foldl (fun acc x => match dictLookup x k with
            | some v => some v
            | none => acc) (dictLookup d0 k) := by
  intro ds
  induction ds with
  | nil => intro d0; rfl
  | cons x t ih =>
      intro d0
      rw [List.foldl_cons, List.foldl_cons, ih, dictLookup_dictMerge]

theorem overrideChain_cons {α : Type} (c0 : Dict α) (ds : List (Dict α)) (k : String) :
    overrideChain (c0 :: ds) k
      = ds.foldl (fun acc x => match dictLookup x k with
          | some v => some v
          | none => acc) (dictLookup c0 k) := by
  unfold overrideChain
  rw [List.foldl_cons]
  cases h : dictLookup c0 k <;> simp [h]

theorem foldMerge_lookup_congr {κ : Type}
    (lookup lookup2 : String → Option (RawMeta κ)) :
    ∀ (l : List String) (d : RawMeta κ),
      (∀ i ∈ l,
        (loadMetadataFile (lookup2 i)).vars = (loadMetadataFile (lookup i)).vars
        ∧ (loadMetadataFile (lookup2 i)).constraints
            = (loadMetadataFile (lookup i)).constraints) →
      l.foldl (mergeInclude lookup2) d = l.foldl (mergeInclude lookup) d := by
  intro l
  induction l with
  | nil => intro d _; rfl
  | cons i t ih =>
      intro d h
      rw [List.foldl_cons, List.foldl_cons]
      have hstep : mergeInclude lookup2 d i = mergeInclude lookup d i := by
        simp only [mergeInclude, (h i (List.mem_cons_self i t)).1,
          (h i (List.mem_cons_self i t)).2]
      rw [hstep]
      exact ih (mergeInclude lookup d i) (fun j hj => h j (List.mem_cons_of_mem i hj))

/-! ### Claim theorem: metadata resolution -/

/-- C5: metadata resolution.  A missing metadata file loads as the empty
mapping; `help` and `reset` come only from the primary file; the result
depends only on the `variables` and `constraints` of the files of the
directly declared includes (so an include's own includes, help and reset
are never followed or read); the merged `constraints` and `variables`
mappings resolve each key through the last-defined-wins chain
primary-then-includes, so an include's definition overrides the primary's
on key collision; and a missing primary file resolves to the normalized
record with all four keys present and empty. -/
theorem metadata_resolution {κ : Type} (pbName : String) (primary : RawMeta κ)
    (lookup : String → Option (RawMeta κ)) :
    loadMetadataFile (κ := κ) none = {}
  ∧ (playbookMetadata pbName primary lookup).help = primary.help
  ∧ (playbookMetadata pbName primary lookup).reset = primary.reset
  ∧ (∀ lookup2 : String → Option (RawMeta κ),
      (∀ i ∈ primary.includes,
        (loadMetadataFile (lookup2 i)).vars = (loadMetadataFile (lookup i)).vars
        ∧ (loadMetadataFile (lookup2 i)).constraints
            = (loadMetadataFile (lookup i)).constraints) →
      playbookMetadata pbName primary lookup2 = playbookMetadata pbName primary lookup)
  ∧ (∀ k, dictLookup (playbookMetadata pbName primary lookup).constraints k
      = overrideChain (primary.constraints
          :: primary.includes.map (fun i => (loadMetadataFile (lookup i)).constraints)) k)
  ∧ (∀ k, dictLookup (mergedRawData primary lookup).vars k
      = overrideChain (primary.vars
          :: primary.includes.map (fun i => (loadMetadataFile (lookup i)).vars)) k)
  ∧ playbookMetadata pbName ({} : RawMeta κ) lookup
      = { help := none, vars := [], constraints := [], reset := [] } := by
  refine ⟨rfl, ?_, ?_, ?_, ?_, ?_, rfl⟩
  · exact foldMerge_help lookup primary.includes primary
  · exact foldMerge_reset lookup primary.includes primary
  · intro lookup2 h
    unfold playbookMetadata
    rw [show mergedRawData primary lookup2 = mergedRawData primary lookup from
      foldMerge_lookup_congr lookup lookup2 primary.includes primary h]
  · intro k
    have h1 : (playbookMetadata pbName primary lookup).constraints
        = (primary.includes.foldl (mergeInclude lookup) primary).constraints := rfl
    rw [h1, foldMerge_constraints lookup primary.includes primary,
      foldl_dictMerge_lookup, overrideChain_cons]
  · intro k
    have h1 : (mergedRawData primary lookup).vars
        = (primary.includes.foldl (mergeInclude lookup) primary).vars := rfl
    rw [h1, foldMerge_vars lookup primary.includes primary,
      foldl_dictMerge_lookup, overrideChain_cons]

/-- Witness for C5: the resolver ignores an include's own includes, help
and reset, and an undeclared name becoming resolvable changes nothing. -/
theorem metadata_resolution_witness :
    playbookMetadata "t" rawC5 lkpC5b = playbookMetadata "t" rawC5 lkpC5 := by
  exact (metadata_resolution "t" rawC5 lkpC5).2.2.2.1 lkpC5b (by decide)

/-- Witness for C6: a strict non-empty subset of a group is present, and
exactly the group-naming error is produced. -/
theorem required_together_spec_witness :
    requiredTogether1 ({} : PbMetadata).vars [("a", Val.str "1")] ["a", "b"]
      = [msgRequiredTogether ({} : PbMetadata).vars ["a", "b"]] := by
  exact (required_together_spec {} [("a", Val.str "1")] ["a", "b"]).1.mpr (by decide)

/-- Witness for C7: both members of the exclusive group present, and
exactly the one raw-name error is produced. -/
theorem mutually_exclusive_spec_witness :
    mutuallyExclusive1 [("a", Val.str "1"), ("b", Val.str "2")] ["a", "b"]
      = [msgMutuallyExclusive ["a", "b"]] := by
  exact (mutually_exclusive_spec {} [("a", Val.str "1"), ("b", Val.str "2")]
    ["a", "b"]).1.mpr (by decide)

end Obsah
